import Mathlib

/-!
Shallow embedding of the `word_generator` crate (src/lib.rs).

Strings are modelled as `List Char`.  The corpus reader is modelled as the
list of its lines (what `BufRead::lines` yields, without the newline
terminators).  `HashMap<String, HashMap<char, u32>>` is modelled as an
association list built in insertion order; only its contents as a mapping
matter for the properties below.  Rust panics (failed `assert!`, usize
underflow feeding an out-of-range slice, `Option::unwrap` on `None`,
`WeightedIndex::new(..).unwrap` on zero total weight) are modelled as
`none` / an error value.  The thread RNG is modelled as a stream of
naturals, one consumed per weighted draw; the draw is the cumulative-sum
selection `r % total` that `WeightedIndex::sample` performs.  The sampler
loop gets explicit fuel; `none` also covers a non-terminating walk.
-/

abbrev Str := List Char

/-- The inner `HashMap<char, u32>` of the table, as an association list. -/
abbrev Freqs := List (Char × Nat)

/-- Outer `HashMap<String, HashMap<char, u32>>`, as an association list. -/
abbrev Table := List (Str × Freqs)

/-- `pub struct ProbabilityTable { table, accuracy }` (src/lib.rs:78-81). -/
structure ProbabilityTable where
  table : Table
  accuracy : Nat
deriving DecidableEq, Repr

/-- Errors of the embedded builder: the `assert!(accuracy >= 1)` failure of
`from_reader` (src/lib.rs:98) and the arithmetic/indexing panic of
`generate_table` on a stream shorter than `accuracy` (src/lib.rs:137). -/
inductive BuildError where
  | invalidConfiguration
  | panicErr
deriving DecidableEq, Repr

/-- `line.to_lowercase()` modelled characterwise (the corpora are ASCII). -/
def lowercase (s : Str) : Str := s.map Char.toLower

/-- `add_space` (src/lib.rs:124-131): prefix every lowercased line with
`accuracy` spaces and concatenate everything. -/
def add_space (lines : List Str) (accuracy : Nat) : Str :=
  (lines.map (fun line => List.replicate accuracy ' ' ++ lowercase line)).flatten

/-- `*inner.entry(value).or_default() += 1` on the inner map: bump the count
of `c`, inserting it with count 1 when absent. -/
def bumpInner (inner : Freqs) (c : Char) : Freqs :=
  match inner with
  | [] => [(c, 1)]
  | (c', n) :: rest => if c' = c then (c', n + 1) :: rest else (c', n) :: bumpInner rest c

/-- `table.entry(key).or_default()` followed by the inner bump: update the
entry of key `k`, inserting a fresh singleton inner map when absent. -/
def bumpTable (t : Table) (k : Str) (c : Char) : Table :=
  match t with
  | [] => [(k, [(c, 1)])]
  | (k', inner) :: rest =>
    if k' = k then (k', bumpInner inner c) :: rest else (k', inner) :: bumpTable rest k c

/-- The window `chars_list.get(i..i + accuracy)` of src/lib.rs:138-142. -/
def windowAt (s : Str) (a i : Nat) : Str := (s.drop i).take a

/-- The successor character `chars_list.get(i + accuracy)` (src/lib.rs:144).
In the loop range it is always in bounds, so the default is never used. -/
def nextCharAt (s : Str) (a i : Nat) : Char := s.getD (i + a) ' '

/-- The sequence of (window, successor) observations made by the loop
`for charactere in 0..chars_list.len() - accuracy` (src/lib.rs:137). -/
def obsList (s : Str) (a : Nat) : List (Str × Char) :=
  (List.range (s.length - a)).map (fun i => (windowAt s a i, nextCharAt s a i))

/-- Folding the `entry(..).or_default()` update over a list of observations,
starting from table `t`. -/
def tfold (obs : List (Str × Char)) (t : Table) : Table :=
  obs.foldl (fun t p => bumpTable t p.1 p.2) t

/-- The table built by the loop body of `generate_table` (src/lib.rs:135-152),
starting from the empty map of `ProbabilityTable::new`. -/
def buildTable (s : Str) (a : Nat) : Table := tfold (obsList s a) []

/-- `generate_table` (src/lib.rs:134-154).  When the character stream is
shorter than `accuracy`, the Rust loop bound `chars_list.len() - accuracy`
underflows and the subsequent `.get(..).unwrap()` panics; that is the `none`
case.  Otherwise every index of the loop is in bounds and the table is
returned. -/
def generate_table (spaced_file : Str) (accuracy : Nat) : Option ProbabilityTable :=
  if spaced_file.length < accuracy then none
  else some { table := buildTable spaced_file accuracy, accuracy := accuracy }

/-- `ProbabilityTable::from_reader` (src/lib.rs:97-100): `assert!(accuracy >= 1)`
then build from the spaced stream. -/
def ProbabilityTable.from_reader (lines : List Str) (accuracy : Nat) :
    Except BuildError ProbabilityTable :=
  if 1 ≤ accuracy then
    match generate_table (add_space lines accuracy) accuracy with
    | some t => .ok t
    | none => .error .panicErr
  else .error .invalidConfiguration

/-- Association-list lookup, `table.get(key)` on the outer map. -/
def lookupTable (t : Table) (k : Str) : Option Freqs :=
  match t with
  | [] => none
  | (k', inner) :: rest => if k' = k then some inner else lookupTable rest k

/-- Count stored for `c` in an inner map (0 when absent). -/
def innerCountD (inner : Freqs) (c : Char) : Nat :=
  match inner with
  | [] => 0
  | (c', n) :: rest => if c' = c then n else innerCountD rest c

/-- Sum of all counts of an inner map. -/
def innerSum (inner : Freqs) : Nat := (inner.map Prod.snd).sum

/-- Count stored in the built table for key `k` and successor `c` (0 when
either level is absent). -/
def tableCountD (t : Table) (k : Str) (c : Char) : Nat :=
  innerCountD ((lookupTable t k).getD []) c

/-- Sum of the counts stored under key `k` (0 when the key is absent). -/
def tableSumD (t : Table) (k : Str) : Nat := innerSum ((lookupTable t k).getD [])

/-- Cumulative-sum index selection of `WeightedIndex::sample`: walk the
weights, the draw `r` is assumed `< total`. -/
def pickWeighted (inner : Freqs) (r : Nat) : Char :=
  match inner with
  | [] => ' '
  | (c, n) :: rest => if r < n then c else pickWeighted rest (r - n)

/-- `WeightedIndex::new(choices.values()).unwrap()` then
`choices.keys()[weight.sample(rng)]` (src/lib.rs:165-166): `new` errors (and
the `unwrap` panics) when the weights are empty or sum to zero; otherwise a
draw `r` selects the position of `r % total` in the cumulative sums, i.e.
each character with probability proportional to its count. -/
def weightedChoice (inner : Freqs) (r : Nat) : Option Char :=
  let total := innerSum inner
  if total = 0 then none else some (pickWeighted inner (r % total))

/-- The loop of `generate_word` (src/lib.rs:159-171): take the last
`accuracy` characters of the buffer as key, look it up (`unwrap` panics on a
missing key: `none`), draw the next character, append it, stop as soon as
the buffer ends with a space.  `fuel` bounds the number of iterations;
running out is `none`. -/
def generate_word_loop (t : ProbabilityTable) (fuel : Nat) (rng : List Nat) (out : Str) :
    Option (Str × List Nat) :=
  match fuel with
  | 0 => none
  | fuel + 1 =>
    let key := out.drop (out.length - t.accuracy)
    match lookupTable t.table key with
    | none => none
    | some choices =>
      match weightedChoice choices (rng.headD 0) with
      | none => none
      | some c =>
        let out' := out ++ [c]
        if out'.getLast? = some ' ' then some (out', rng.tail)
        else generate_word_loop t fuel rng.tail out'

/-- `str::trim` (src/lib.rs:172): remove leading and trailing whitespace
(space, tab, CR, LF — the fragment of `char::is_whitespace` the corpora
use). -/
def rustTrim (s : Str) : Str :=
  ((s.dropWhile Char.isWhitespace).reverse.dropWhile Char.isWhitespace).reverse

/-- `generate_word` (src/lib.rs:157-173): start from `accuracy` spaces, run
the loop, trim the result.  Returns the word together with the unconsumed
part of the RNG stream. -/
def generate_word (t : ProbabilityTable) (rng : List Nat) (fuel : Nat) :
    Option (Str × List Nat) :=
  match generate_word_loop t fuel rng (List.replicate t.accuracy ' ') with
  | none => none
  | some (out, rng') => some (rustTrim out, rng')

/-- `generate_multiple_words` (src/lib.rs:175-182): one shared RNG threaded
through `number` calls of `generate_word`, results collected in generation
order — no sorting here. -/
def generate_multiple_words (matrix : ProbabilityTable) (number : Nat) (rng : List Nat)
    (fuel : Nat) : Option (List Str) :=
  match number with
  | 0 => some []
  | n + 1 =>
    match generate_word matrix rng fuel with
    | none => none
    | some (w, rng') =>
      match generate_multiple_words matrix n rng' fuel with
      | none => none
      | some ws => some (w :: ws)

/-- `ProbabilityTable::generate_words` (src/lib.rs:118-120): it just calls
`generate_multiple_words`. -/
def ProbabilityTable.generate_words (t : ProbabilityTable) (amount : Nat) (rng : List Nat)
    (fuel : Nat) : Option (List Str) :=
  generate_multiple_words t amount rng fuel

/-- UTF-8 encoded size of one character: what `String::len` counts per char
in Rust. -/
def utf8Size (c : Char) : Nat :=
  if c.toNat < 0x80 then 1 else if c.toNat < 0x800 then 2
  else if c.toNat < 0x10000 then 3 else 4

/-- `String::len` of a word: its UTF-8 byte length. -/
def byteLen (s : Str) : Nat := (s.map utf8Size).sum

/-- The key order of `out.sort_by_key(|a| a.len())` (src/lib.rs:209). -/
def lenLe (x y : Str) : Prop := byteLen x ≤ byteLen y

instance : DecidableRel lenLe := fun x y => Nat.decLe _ _

instance : IsTotal Str lenLe := ⟨fun _ _ => Nat.le_total _ _⟩

instance : IsTrans Str lenLe := ⟨fun _ _ _ => Nat.le_trans⟩

/-- The free function `generate_words` (src/lib.rs:200-211): build the
table, generate `amout` words, then `out.sort_by_key(|a| a.len())`.  Rust's
`sort_by_key` is a stable sort by the key, so it is modelled by the stable
`List.insertionSort` on `lenLe`. -/
def generate_words (lines : List Str) (accuracy amount : Nat) (rng : List Nat)
    (fuel : Nat) : Option (List Str) :=
  match generate_table (add_space lines accuracy) accuracy with
  | none => none
  | some t =>
    match generate_multiple_words t amount rng fuel with
    | none => none
    | some out => some (List.insertionSort lenLe out)

/-- The table built from the corpus ["ab", "b"] with accuracy 1; used as the
concrete instance in several witnesses. -/
def exTable : ProbabilityTable :=
  { table := [([' '], [('a', 1), ('b', 1)]), (['a'], [('b', 1)]), (['b'], [(' ', 1)])],
    accuracy := 1 }

/-- The table built from the corpus ["abc", "éé", "é"] with accuracy 1; the
word "éé" is two characters but four UTF-8 bytes, so byte-length order and
character-length order disagree on its words. -/
def exTable2 : ProbabilityTable :=
  { table := [([' '], [('a', 1), ('é', 2)]), (['a'], [('b', 1)]), (['b'], [('c', 1)]),
      (['c'], [(' ', 1)]), (['é'], [('é', 1), (' ', 1)])],
    accuracy := 1 }

/-! ### Structural lemmas about the builder fold -/

theorem innerCountD_bumpInner (inner : Freqs) (c c' : Char) :
    innerCountD (bumpInner inner c) c' =
      innerCountD inner c' + (if c' = c then 1 else 0) := by
  induction inner with
  | nil =>
    simp only [bumpInner, innerCountD]
    split_ifs with h1 h2 h2 <;> simp_all <;> omega
  | cons p rest ih =>
    obtain ⟨c0, n⟩ := p
    simp only [bumpInner, innerCountD]
    split_ifs with h1 h2 h2 <;> simp_all [innerCountD] <;> omega

theorem innerSum_bumpInner (inner : Freqs) (c : Char) :
    innerSum (bumpInner inner c) = innerSum inner + 1 := by
  induction inner with
  | nil => simp [bumpInner, innerSum]
  | cons p rest ih =>
    obtain ⟨c0, n⟩ := p
    simp only [bumpInner]
    split_ifs with h1 <;> simp_all [innerSum] <;> omega

theorem bumpInner_ne_nil (inner : Freqs) (c : Char) : bumpInner inner c ≠ [] := by
  cases inner with
  | nil => simp [bumpInner]
  | cons p rest =>
    obtain ⟨c0, n⟩ := p
    simp only [bumpInner]
    split_ifs <;> simp

theorem bumpInner_pos (inner : Freqs) (c : Char)
    (h : ∀ q ∈ inner, 1 ≤ q.2) : ∀ q ∈ bumpInner inner c, 1 ≤ q.2 := by
  induction inner with
  | nil => simp [bumpInner]
  | cons p rest ih =>
    obtain ⟨c0, n⟩ := p
    simp only [bumpInner]
    split_ifs with h1
    · intro q hq
      rcases List.mem_cons.mp hq with h2 | h2
      · subst h2; omega
      · exact h q (List.mem_cons_of_mem _ h2)
    · intro q hq
      rcases List.mem_cons.mp hq with h2 | h2
      · subst h2; exact h _ (List.mem_cons_self _ _)
      · exact ih (fun q hq => h q (List.mem_cons_of_mem _ hq)) q h2

theorem lookupTable_cons (k0 : Str) (inner : Freqs) (rest : Table) (k : Str) :
    lookupTable ((k0, inner) :: rest) k = if k0 = k then some inner else lookupTable rest k := rfl

theorem lookupTable_bumpTable (t : Table) (k : Str) (c : Char) (k' : Str) :
    lookupTable (bumpTable t k c) k' =
      if k' = k then some (bumpInner ((lookupTable t k).getD []) c)
      else lookupTable t k' := by
  induction t with
  | nil =>
    by_cases h : k' = k
    · subst h; simp [bumpTable, lookupTable, bumpInner]
    · simp [bumpTable, lookupTable, h, Ne.symm h]
  | cons p rest ih =>
    obtain ⟨k0, inner⟩ := p
    by_cases h1 : k0 = k <;> by_cases h2 : k0 = k'
    · subst h1; subst h2
      simp [bumpTable, lookupTable_cons]
    · subst h1
      simp [bumpTable, lookupTable_cons, h2, Ne.symm h2]
    · subst h2
      simp [bumpTable, lookupTable_cons, h1]
    · simp [bumpTable, lookupTable_cons, h1, h2, ih]

theorem tableCountD_bumpTable (t : Table) (k : Str) (c : Char) (k' : Str) (c' : Char) :
    tableCountD (bumpTable t k c) k' c' =
      tableCountD t k' c' + (if k' = k ∧ c' = c then 1 else 0) := by
  simp only [tableCountD, lookupTable_bumpTable]
  by_cases h1 : k' = k
  · subst h1; simp [innerCountD_bumpInner]
  · simp [h1]

theorem tableSumD_bumpTable (t : Table) (k : Str) (c : Char) (k' : Str) :
    tableSumD (bumpTable t k c) k' =
      tableSumD t k' + (if k' = k then 1 else 0) := by
  simp only [tableSumD, lookupTable_bumpTable]
  by_cases h1 : k' = k
  · subst h1; simp [innerSum_bumpInner]
  · simp [h1]

theorem tableCountD_tfold (obs : List (Str × Char)) (t : Table) (k : Str) (c : Char) :
    tableCountD (tfold obs t) k c =
      tableCountD t k c + obs.countP (fun p => decide (k = p.1 ∧ c = p.2)) := by
  induction obs generalizing t with
  | nil => simp [tfold]
  | cons p obs ih =>
    simp only [tfold, List.foldl_cons] at ih ⊢
    rw [ih, tableCountD_bumpTable, List.countP_cons]
    simp only [decide_eq_true_eq]
    split_ifs with h1 <;> omega

theorem tableSumD_tfold (obs : List (Str × Char)) (t : Table) (k : Str) :
    tableSumD (tfold obs t) k =
      tableSumD t k + obs.countP (fun p => decide (k = p.1)) := by
  induction obs generalizing t with
  | nil => simp [tfold]
  | cons p obs ih =>
    simp only [tfold, List.foldl_cons] at ih ⊢
    rw [ih, tableSumD_bumpTable, List.countP_cons]
    simp only [decide_eq_true_eq]
    split_ifs with h1 <;> omega

theorem lookupTable_tfold_isSome (obs : List (Str × Char)) (t : Table) (k : Str) :
    (lookupTable (tfold obs t) k).isSome =
      ((lookupTable t k).isSome || obs.any (fun p => decide (k = p.1))) := by
  induction obs generalizing t with
  | nil => simp [tfold]
  | cons p obs ih =>
    simp only [tfold, List.foldl_cons] at ih ⊢
    rw [ih, List.any_cons]
    have hbump : (lookupTable (bumpTable t p.1 p.2) k).isSome =
        ((lookupTable t k).isSome || decide (k = p.1)) := by
      rw [lookupTable_bumpTable]
      by_cases h : k = p.1
      · simp [h]
      · simp [h]
    rw [hbump, Bool.or_assoc]

/-- The structural invariant of a built table: fixed-width keys, non-empty
inner maps, strictly positive counts. -/
def GoodTable (t : Table) (a : Nat) : Prop :=
  ∀ p ∈ t, p.1.length = a ∧ p.2 ≠ [] ∧ ∀ q ∈ p.2, 1 ≤ q.2

theorem goodTable_bumpTable (t : Table) (a : Nat) (k : Str) (c : Char)
    (ht : GoodTable t a) (hk : k.length = a) : GoodTable (bumpTable t k c) a := by
  induction t with
  | nil =>
    intro p hp
    simp only [bumpTable, List.mem_singleton] at hp
    subst hp
    refine ⟨hk, by simp, ?_⟩
    intro q hq
    simp only [List.mem_singleton] at hq
    subst hq
    exact Nat.le_refl 1
  | cons p0 rest ih =>
    obtain ⟨k0, inner⟩ := p0
    have h0 := ht (k0, inner) (List.mem_cons_self _ _)
    have hrest : GoodTable rest a := fun q hq => ht q (List.mem_cons_of_mem _ hq)
    simp only [bumpTable]
    split_ifs with h1
    · intro p hp
      rcases List.mem_cons.mp hp with h2 | h2
      · subst h2
        exact ⟨h0.1, bumpInner_ne_nil _ _, bumpInner_pos _ _ h0.2.2⟩
      · exact hrest p h2
    · intro p hp
      rcases List.mem_cons.mp hp with h2 | h2
      · subst h2; exact h0
      · exact ih hrest p h2

theorem goodTable_tfold (obs : List (Str × Char)) (t : Table) (a : Nat)
    (ht : GoodTable t a) (hobs : ∀ p ∈ obs, p.1.length = a) :
    GoodTable (tfold obs t) a := by
  induction obs generalizing t with
  | nil => exact ht
  | cons p obs ih =>
    simp only [tfold, List.foldl_cons]
    exact ih (bumpTable t p.1 p.2)
      (goodTable_bumpTable t a p.1 p.2 ht (hobs p (List.mem_cons_self _ _)))
      (fun q hq => hobs q (List.mem_cons_of_mem _ hq))

/-- Counting positions below `len` that additionally satisfy `i + a < len`
is counting positions below `len - a`. -/
theorem countP_range_restrict (P : Nat → Bool) (len a : Nat) :
    (List.range len).countP (fun i => P i && decide (i + a < len)) =
      (List.range (len - a)).countP P := by
  have hsplit : List.range len =
      List.range (len - a) ++ (List.range (len - (len - a))).map ((len - a) + ·) := by
    rw [← List.range_add]
    congr 1
    omega
  rw [hsplit, List.countP_append, List.countP_map]
  have h2 : ((List.range (len - (len - a))).countP
      ((fun i => P i && decide (i + a < len)) ∘ ((len - a) + ·))) = 0 := by
    rw [List.countP_eq_zero]
    intro i hi
    simp only [List.mem_range] at hi
    simp only [Function.comp_apply, Bool.and_eq_true, decide_eq_true_eq, not_and]
    intro _
    omega
  have h3 : (List.range (len - a)).countP (fun i => P i && decide (i + a < len)) =
      (List.range (len - a)).countP P := by
    apply List.countP_congr
    intro i hi
    simp only [List.mem_range] at hi
    have hia : i + a < len := by omega
    simp [hia]
  rw [h2, h3, Nat.add_zero]

/-- A window starting at a position of the loop range has length exactly
`accuracy`. -/
theorem windowAt_length (s : Str) (a i : Nat) (h : i < s.length - a) :
    (windowAt s a i).length = a := by
  simp only [windowAt, List.length_take, List.length_drop]
  omega

/-- Number of positions of the stream at which window `k` occurs with at
least one character following it. -/
def windowOccurrences (s : Str) (a : Nat) (k : Str) : Nat :=
  (List.range s.length).countP
    (fun i => decide (k = windowAt s a i) && decide (i + a < s.length))

/-- Number of positions of the stream at which window `k` occurs followed
there by the character `c`: the exact tally the built table stores. -/
def tallyKC (s : Str) (a : Nat) (k : Str) (c : Char) : Nat :=
  (List.range s.length).countP
    (fun i => decide (k = windowAt s a i ∧ c = nextCharAt s a i) && decide (i + a < s.length))

theorem tableCountD_buildTable (s : Str) (a : Nat) (k : Str) (c : Char) :
    tableCountD (buildTable s a) k c = tallyKC s a k c := by
  rw [buildTable, tableCountD_tfold]
  simp only [tableCountD, lookupTable, Option.getD_none, innerCountD, Nat.zero_add]
  rw [obsList, List.countP_map, tallyKC, ← countP_range_restrict]
  rfl

theorem tableSumD_buildTable (s : Str) (a : Nat) (k : Str) :
    tableSumD (buildTable s a) k = windowOccurrences s a k := by
  rw [buildTable, tableSumD_tfold]
  simp only [tableSumD, lookupTable, Option.getD_none, innerSum, List.map_nil, List.sum_nil,
    Nat.zero_add]
  rw [obsList, List.countP_map, windowOccurrences, ← countP_range_restrict]
  rfl

theorem lookupTable_buildTable_isSome (s : Str) (a : Nat) (k : Str) :
    (lookupTable (buildTable s a) k).isSome = true ↔
      ∃ i < s.length - a, k = windowAt s a i := by
  rw [buildTable, lookupTable_tfold_isSome]
  simp only [lookupTable, Option.isSome_none, Bool.false_or, List.any_eq_true, obsList,
    List.mem_map, List.mem_range, decide_eq_true_eq]
  constructor
  · rintro ⟨p, ⟨i, hi, rfl⟩, hk⟩
    exact ⟨i, hi, hk⟩
  · rintro ⟨i, hi, hk⟩
    exact ⟨(windowAt s a i, nextCharAt s a i), ⟨i, hi, rfl⟩, hk⟩

theorem goodTable_buildTable (s : Str) (a : Nat) : GoodTable (buildTable s a) a := by
  apply goodTable_tfold
  · intro p hp
    simp at hp
  · intro p hp
    simp only [obsList, List.mem_map, List.mem_range] at hp
    obtain ⟨i, hi, rfl⟩ := hp
    exact windowAt_length s a i hi

/-! ### Helpers about `add_space` and the builder entry points -/

theorem add_space_append (xs ys : List Str) (a : Nat) :
    add_space (xs ++ ys) a = add_space xs a ++ add_space ys a := by
  simp [add_space]

theorem add_space_cons (l : Str) (ys : List Str) (a : Nat) :
    add_space (l :: ys) a = (List.replicate a ' ' ++ lowercase l) ++ add_space ys a := by
  simp [add_space]

theorem from_reader_ok (lines : List Str) (accuracy : Nat) (T : ProbabilityTable)
    (h : ProbabilityTable.from_reader lines accuracy = .ok T) :
    1 ≤ accuracy ∧ accuracy ≤ (add_space lines accuracy).length ∧
      T.table = buildTable (add_space lines accuracy) accuracy ∧ T.accuracy = accuracy := by
  unfold ProbabilityTable.from_reader at h
  by_cases h1 : 1 ≤ accuracy
  · rw [if_pos h1] at h
    unfold generate_table at h
    by_cases h2 : (add_space lines accuracy).length < accuracy
    · rw [if_pos h2] at h
      cases h
    · rw [if_neg h2] at h
      simp only [Except.ok.injEq] at h
      exact ⟨h1, by omega, by rw [← h], by rw [← h]⟩
  · rw [if_neg h1] at h
    cases h

/-! ### Claims -/

/-- C2: for every reader and every accuracy strictly less than 1, the
Builder `ProbabilityTable::from_reader` fails with the invalid-configuration
condition (the `assert!(accuracy >= 1)`) before doing any work, and does not
return a table. -/
theorem C2_invalid_configuration (lines : List Str) (accuracy : Nat)
    (h : accuracy < 1) :
    ProbabilityTable.from_reader lines accuracy = .error .invalidConfiguration := by
  unfold ProbabilityTable.from_reader
  rw [if_neg (by omega)]

theorem C2_witness :
    0 < 1 ∧ ProbabilityTable.from_reader [['a']] 0 = .error .invalidConfiguration :=
  ⟨by decide, C2_invalid_configuration [['a']] 0 (by decide)⟩

/-- C3 (counterexample): the claim says that on every padded stream shorter
than `contextLength + 1` characters, `generate_table` returns an empty table
with no failure during building.  On the empty padded stream (the output of
`add_space` for a corpus with zero lines) and `contextLength = 1`, the loop
bound `chars_list.len() - accuracy` underflows and building panics — the
result is a failure (`none`), not `some` of an empty table. -/
theorem C3_counterexample : generate_table ([] : Str) 1 = none := rfl

/-- C3 (amended): for every padded stream produced from at least one corpus
line and every `contextLength ≥ 1`, `generate_table` performs no
out-of-bounds access — the window loop stops when the window position plus
`contextLength` reaches the end of the stream, so building succeeds — and
if the stream has fewer than `contextLength + 1` characters the resulting
table is empty.  (The empty padded stream, from a corpus with zero lines,
instead panics.) -/
theorem C3_no_oob (lines : List Str) (accuracy : Nat) (ha : 1 ≤ accuracy)
    (hl : lines ≠ []) :
    generate_table (add_space lines accuracy) accuracy =
      some ⟨buildTable (add_space lines accuracy) accuracy, accuracy⟩ ∧
      (buildTable (add_space lines accuracy) accuracy = [] ∨
        accuracy + 1 ≤ (add_space lines accuracy).length) := by
  have hlen : accuracy ≤ (add_space lines accuracy).length := by
    obtain ⟨l, rest, rfl⟩ : ∃ l rest, lines = l :: rest := by
      cases lines with
      | nil => exact absurd rfl hl
      | cons l rest => exact ⟨l, rest, rfl⟩
    rw [add_space_cons]
    simp only [List.length_append, List.length_replicate]
    omega
  constructor
  · unfold generate_table
    rw [if_neg (by omega)]
  · by_cases hshort : accuracy + 1 ≤ (add_space lines accuracy).length
    · exact Or.inr hshort
    · left
      have hz : (add_space lines accuracy).length - accuracy = 0 := by omega
      rw [buildTable, obsList, hz]
      rfl

theorem C3_witness :
    (1 ≤ 1 ∧ ([[]] : List Str) ≠ []) ∧
      (generate_table (add_space [[]] 1) 1 = some ⟨buildTable (add_space [[]] 1) 1, 1⟩ ∧
        (buildTable (add_space [[]] 1) 1 = [] ∨ 1 + 1 ≤ (add_space [[]] 1).length)) :=
  ⟨⟨by decide, by decide⟩, C3_no_oob [[]] 1 (by decide) (by decide)⟩

/-- C4 (counterexample): the claim says a corpus whose padded stream has
fewer than `contextLength + 1` characters makes the Builder fail at build
time with an insufficient-corpus error.  For the corpus consisting of one
empty line and `contextLength = 1` the padded stream is the single space
`" "`, yet `from_reader` succeeds and returns a table with no entries — it
does not fail with any error. -/
theorem C4_counterexample :
    ProbabilityTable.from_reader [([] : Str)] 1 = .ok ⟨[], 1⟩ := rfl

/-- C4 (amended): the Builder has no insufficient-corpus detection.  On a
corpus with zero lines it panics at build time (loop-bound underflow /
failed unwrap), not with a dedicated error; on a corpus of one empty line
(padded stream of exactly `contextLength` characters) it returns an empty
table, and every sampling attempt from that table then fails at the very
first lookup. -/
theorem C4_no_insufficient_corpus_error :
    ProbabilityTable.from_reader ([] : List Str) 1 = .error .panicErr ∧
      ProbabilityTable.from_reader [([] : Str)] 1 = .ok ⟨[], 1⟩ ∧
      ∀ rng fuel, generate_word ⟨[], 1⟩ rng fuel = none := by
  refine ⟨rfl, rfl, ?_⟩
  intro rng fuel
  cases fuel with
  | zero => rfl
  | succ n => rfl

/-- C5: for every accuracy ≥ 1 (implied by a successful build) and every
corpus containing at least one non-empty word, the table returned by the
Builder contains the all-separator context `" " * accuracy`: that word's
leading pad is a window of the stream, followed by the word's first
character. -/
theorem C5_all_separator_context (lines : List Str) (accuracy : Nat)
    (T : ProbabilityTable) (h : ProbabilityTable.from_reader lines accuracy = .ok T)
    (hw : ∃ l ∈ lines, l ≠ []) :
    (lookupTable T.table (List.replicate accuracy ' ')).isSome = true := by
  obtain ⟨h1, h2, htab, hacc⟩ := from_reader_ok lines accuracy T h
  rw [htab, lookupTable_buildTable_isSome]
  obtain ⟨l, hl, hlne⟩ := hw
  obtain ⟨pre, suf, rfl⟩ := List.append_of_mem hl
  have hpos : 1 ≤ (lowercase l).length := by
    rw [lowercase, List.length_map]
    exact List.length_pos.mpr hlne
  refine ⟨(add_space pre accuracy).length, ?_, ?_⟩
  · rw [add_space_append, add_space_cons]
    simp only [List.length_append, List.length_replicate]
    omega
  · rw [add_space_append, add_space_cons, windowAt, List.append_assoc, List.drop_left]
    exact (List.take_left' (List.length_replicate accuracy ' ')).symm

theorem C5_witness :
    (∃ l ∈ ([['a','b'], ['b']] : List Str), l ≠ []) ∧
      (lookupTable exTable.table (List.replicate 1 ' ')).isSome = true :=
  ⟨⟨['a','b'], by decide, by decide⟩,
    C5_all_separator_context [['a','b'], ['b']] 1 exTable (by rfl)
      ⟨['a','b'], by decide, by decide⟩⟩

/-- C6: for every built table and every key present in it, the sum of the
counts of the inner map equals the number of window positions of the padded
stream at which the key occurs with at least one character following it. -/
theorem C6_count_conservation (lines : List Str) (accuracy : Nat)
    (T : ProbabilityTable) (k : Str) (inner : Freqs)
    (h : ProbabilityTable.from_reader lines accuracy = .ok T)
    (hk : lookupTable T.table k = some inner) :
    innerSum inner = windowOccurrences (add_space lines accuracy) accuracy k := by
  obtain ⟨h1, h2, htab, hacc⟩ := from_reader_ok lines accuracy T h
  rw [htab] at hk
  rw [← tableSumD_buildTable (add_space lines accuracy) accuracy k, tableSumD, hk]
  rfl

theorem C6_witness :
    lookupTable exTable.table [' '] = some [('a', 1), ('b', 1)] ∧
      innerSum [('a', 1), ('b', 1)] = windowOccurrences (add_space [['a','b'], ['b']] 1) 1 [' '] :=
  ⟨by decide,
    C6_count_conservation [['a','b'], ['b']] 1 exTable [' '] [('a', 1), ('b', 1)]
      (by rfl) (by decide)⟩

/-- C7: for every corpus and accuracy on which the Builder succeeds, every
key of the returned table has length exactly `accuracy`. -/
theorem C7_key_length (lines : List Str) (accuracy : Nat) (T : ProbabilityTable)
    (h : ProbabilityTable.from_reader lines accuracy = .ok T)
    (p : Str × Freqs) (hp : p ∈ T.table) : p.1.length = accuracy := by
  obtain ⟨h1, h2, htab, hacc⟩ := from_reader_ok lines accuracy T h
  rw [htab] at hp
  exact (goodTable_buildTable (add_space lines accuracy) accuracy p hp).1

theorem C7_witness : (([' '], [('a', 1), ('b', 1)]) : Str × Freqs).1.length = 1 :=
  C7_key_length [['a','b'], ['b']] 1 exTable (by rfl) ([' '], [('a', 1), ('b', 1)])
    (by decide)

/-- C8: for every table returned by the Builder, the inner map of every
present key is non-empty, and every count stored in it is at least 1. -/
theorem C8_counts_positive (lines : List Str) (accuracy : Nat) (T : ProbabilityTable)
    (h : ProbabilityTable.from_reader lines accuracy = .ok T)
    (p : Str × Freqs) (hp : p ∈ T.table) :
    p.2 ≠ [] ∧ ∀ q ∈ p.2, 1 ≤ q.2 := by
  obtain ⟨h1, h2, htab, hacc⟩ := from_reader_ok lines accuracy T h
  rw [htab] at hp
  have hg := goodTable_buildTable (add_space lines accuracy) accuracy p hp
  exact ⟨hg.2.1, hg.2.2⟩

theorem C8_witness :
    (([' '], [('a', 1), ('b', 1)]) : Str × Freqs).2 ≠ [] ∧
      ∀ q ∈ (([' '], [('a', 1), ('b', 1)]) : Str × Freqs).2, 1 ≤ q.2 :=
  C8_counts_positive [['a','b'], ['b']] 1 exTable (by rfl) ([' '], [('a', 1), ('b', 1)])
    (by decide)

/-- C9: table construction is deterministic — two successful builds from the
same corpus and accuracy return equal tables, and the mapping they realize
is the exact window tally of the padded stream, a function of the corpus and
accuracy alone (independent of any hash-map iteration detail). -/
theorem C9_deterministic (lines : List Str) (accuracy : Nat)
    (T T' : ProbabilityTable) (k : Str) (c : Char)
    (h : ProbabilityTable.from_reader lines accuracy = .ok T)
    (h' : ProbabilityTable.from_reader lines accuracy = .ok T') :
    T = T' ∧ tableCountD T.table k c = tallyKC (add_space lines accuracy) accuracy k c := by
  constructor
  · exact Except.ok.inj (h.symm.trans h')
  · obtain ⟨h1, h2, htab, hacc⟩ := from_reader_ok lines accuracy T h
    rw [htab]
    exact tableCountD_buildTable (add_space lines accuracy) accuracy k c

theorem C9_witness :
    exTable = exTable ∧
      tableCountD exTable.table [' '] 'b' = tallyKC (add_space [['a','b'], ['b']] 1) 1 [' '] 'b' :=
  C9_deterministic [['a','b'], ['b']] 1 exTable exTable [' '] 'b' (by rfl) (by rfl)

/-! ### Sampler lemmas -/

theorem generate_word_loop_shape (t : ProbabilityTable) (fuel : Nat) (rng : List Nat)
    (out res : Str) (rng' : List Nat)
    (h : generate_word_loop t fuel rng out = some (res, rng')) :
    ∃ mid, res = out ++ mid ++ [' '] ∧ ' ' ∉ mid := by
  induction fuel generalizing rng out with
  | zero => cases h
  | succ n ih =>
    simp only [generate_word_loop] at h
    cases hl : lookupTable t.table (out.drop (out.length - t.accuracy)) with
    | none => rw [hl] at h; cases h
    | some choices =>
      simp only [hl] at h
      cases hw : weightedChoice choices (rng.headD 0) with
      | none => rw [hw] at h; cases h
      | some c =>
        simp only [hw] at h
        by_cases hsp : (out ++ [c]).getLast? = some ' '
        · rw [if_pos hsp] at h
          have hc : c = ' ' := by
            rw [List.getLast?_concat] at hsp
            exact Option.some.inj hsp
          refine ⟨[], ?_, by simp⟩
          simp only [Option.some.injEq, Prod.mk.injEq] at h
          rw [← h.1, hc]
          simp
        · rw [if_neg hsp] at h
          obtain ⟨mid, hres, hmid⟩ := ih rng.tail (out ++ [c]) h
          have hc : c ≠ ' ' := by
            rw [List.getLast?_concat] at hsp
            intro hcc
            exact hsp (by rw [hcc])
          refine ⟨c :: mid, ?_, ?_⟩
          · rw [hres]
            simp
          · intro hmem
            rcases List.mem_cons.mp hmem with h2 | h2
            · exact hc h2.symm
            · exact hmid h2

theorem rustTrim_no_space (sp body : Str) (hsp : ∀ x ∈ sp, x = ' ')
    (hbody : ' ' ∉ body) : ' ' ∉ rustTrim (sp ++ body ++ [' ']) := by
  unfold rustTrim
  have h1 : ((sp ++ body ++ [' ']).dropWhile Char.isWhitespace) =
      ((body ++ [' ']).dropWhile Char.isWhitespace) := by
    rw [List.append_assoc]
    apply List.dropWhile_append_of_pos
    intro x hx
    rw [hsp x hx]
    decide
  rw [h1, List.dropWhile_append]
  by_cases hemp : (body.dropWhile Char.isWhitespace).isEmpty
  · rw [if_pos hemp]
    have h2 : ([' '] : Str).dropWhile Char.isWhitespace = [] := by decide
    rw [h2]
    simp
  · rw [if_neg hemp]
    have hrev : ((body.dropWhile Char.isWhitespace) ++ [' ']).reverse =
        ' ' :: (body.dropWhile Char.isWhitespace).reverse := by
      simp
    rw [hrev, List.dropWhile_cons_of_pos (by decide)]
    intro hmem
    rw [List.mem_reverse] at hmem
    have h3 := (List.dropWhile_sublist Char.isWhitespace).subset hmem
    rw [List.mem_reverse] at h3
    exact hbody ((List.dropWhile_sublist Char.isWhitespace).subset h3)

/-- C10: any word returned by the single-word sampler `generate_word`
contains no space character at any position: the generation loop stops at
the first separator emitted, so the buffer is the all-space pad, then
space-free characters, then one final space, and `trim` removes both ends. -/
theorem C10_no_space_in_word (t : ProbabilityTable) (rng : List Nat) (fuel : Nat)
    (w : Str) (rng' : List Nat)
    (h : generate_word t rng fuel = some (w, rng')) : ' ' ∉ w := by
  unfold generate_word at h
  cases hl : generate_word_loop t fuel rng (List.replicate t.accuracy ' ') with
  | none => rw [hl] at h; cases h
  | some p =>
    obtain ⟨res, rng2⟩ := p
    simp only [hl, Option.some.injEq, Prod.mk.injEq] at h
    obtain ⟨mid, hres, hmid⟩ :=
      generate_word_loop_shape t fuel rng (List.replicate t.accuracy ' ') res rng2 hl
    rw [← h.1, hres]
    exact rustTrim_no_space (List.replicate t.accuracy ' ') mid
      (fun x hx => List.eq_of_mem_replicate hx) hmid

theorem C10_witness : ' ' ∉ (['a','b'] : Str) :=
  C10_no_space_in_word exTable [0, 0, 0] 5 ['a','b'] [] (by decide)

/-! ### Stability of the free function's sort -/

theorem filter_orderedInsert_eq (a : Str) (l : List Str) (n : Nat) (ha : byteLen a = n) :
    (List.orderedInsert lenLe a l).filter (fun w => byteLen w == n) =
      a :: l.filter (fun w => byteLen w == n) := by
  induction l with
  | nil => simp [List.orderedInsert, ha]
  | cons b l ih =>
    by_cases h : lenLe a b
    · simp [List.orderedInsert, h, ha]
    · have hb : ¬ (byteLen b = n) := by
        simp only [lenLe] at h
        omega
      simp [List.orderedInsert, h, hb, ih]

theorem filter_orderedInsert_ne (a : Str) (l : List Str) (n : Nat) (ha : ¬ byteLen a = n) :
    (List.orderedInsert lenLe a l).filter (fun w => byteLen w == n) =
      l.filter (fun w => byteLen w == n) := by
  induction l with
  | nil => simp [List.orderedInsert, ha]
  | cons b l ih =>
    by_cases h : lenLe a b
    · simp [List.orderedInsert, h, ha]
    · simp only [List.orderedInsert, if_neg h, List.filter_cons, ih]

/-- `insertionSort` on the byte-length order is a stable sort: restricted to
the words of any fixed byte length, the output lists exactly the input words
in their original order. -/
theorem insertionSort_stable_filter (l : List Str) (n : Nat) :
    (List.insertionSort lenLe l).filter (fun w => byteLen w == n) =
      l.filter (fun w => byteLen w == n) := by
  induction l with
  | nil => rfl
  | cons a l ih =>
    rw [List.insertionSort]
    by_cases ha : byteLen a = n
    · rw [filter_orderedInsert_eq a _ n ha, ih]
      simp [List.filter_cons, ha]
    · rw [filter_orderedInsert_ne a _ n ha, ih]
      simp [List.filter_cons, ha]

/-- C1 (counterexample): the claim says both batch entry points return the
generated words sorted by non-decreasing character length.  On the table
built from the corpus ["abc", "éé", "é"] with accuracy 1, with RNG draws
that generate "abc" first and then "éé", both entry points return
["abc", "éé"] — character lengths 3 then 2.  The method
`ProbabilityTable::generate_words` never sorts, and the free function
`generate_words` sorts by `String::len`, the UTF-8 byte length (3 and 4
bytes here), so even its sorted output is not ordered by character
length. -/
theorem C1_counterexample :
    ProbabilityTable.from_reader [['a','b','c'], ['é','é'], ['é']] 1 = .ok exTable2 ∧
      exTable2.generate_words 2 [0, 0, 0, 0, 1, 0, 1] 9 = some [['a','b','c'], ['é','é']] ∧
      generate_words [['a','b','c'], ['é','é'], ['é']] 1 2 [0, 0, 0, 0, 1, 0, 1] 9 =
        some [['a','b','c'], ['é','é']] ∧
      ¬ List.Sorted (fun x y : Str => x.length ≤ y.length) [['a','b','c'], ['é','é']] :=
  ⟨rfl, by decide, by decide, by decide⟩

/-- C1 (amended): `ProbabilityTable::generate_words` returns the words in
generation order without sorting (it is exactly `generate_multiple_words`),
while the free function `generate_words` returns the generated words stably
sorted by non-decreasing byte length (`String::len`, the `sort_by_key`
key): its output is sorted by byte length, is a permutation of the
generated sequence, and restricted to any fixed byte length it preserves
the generation order.  Byte length coincides with character length only for
one-byte characters. -/
theorem C1_sorted_output (lines : List Str) (accuracy amount : Nat)
    (rng : List Nat) (fuel : Nat) (t : ProbabilityTable) (ws out : List Str) (n : Nat)
    (hgt : generate_table (add_space lines accuracy) accuracy = some t)
    (hws : generate_multiple_words t amount rng fuel = some ws)
    (h : generate_words lines accuracy amount rng fuel = some out) :
    t.generate_words amount rng fuel = some ws ∧
      List.Sorted lenLe out ∧ ws.Perm out ∧
      out.filter (fun w => byteLen w == n) = ws.filter (fun w => byteLen w == n) := by
  simp only [generate_words, hgt, hws, Option.some.injEq] at h
  subst h
  exact ⟨hws, List.sorted_insertionSort lenLe ws,
    (List.perm_insertionSort lenLe ws).symm, insertionSort_stable_filter ws n⟩

theorem C1_witness :
    exTable.generate_words 2 [0, 0, 0, 1, 0] 5 = some [['a','b'], ['b']] ∧
      List.Sorted lenLe [['b'], ['a','b']] ∧
      ([['a','b'], ['b']] : List Str).Perm [['b'], ['a','b']] ∧
      ([['b'], ['a','b']] : List Str).filter (fun w => byteLen w == 1) =
        ([['a','b'], ['b']] : List Str).filter (fun w => byteLen w == 1) :=
  C1_sorted_output [['a','b'], ['b']] 1 2 [0, 0, 0, 1, 0] 5 exTable
    [['a','b'], ['b']] [['b'], ['a','b']] 1 (by rfl) (by decide) (by decide)
